import Mathlib

/-!
Verification development for the UMLS relationship analysis program
(`umls_relationship_analysis.py`).

The Python sets are modelled as duplicate-free lists (membership is the
set semantics), the `Counter` as an association list, and the recursive
DFS as a fuel-indexed structural recursion (the fuel supplied by the
top-level driver exceeds the maximal recursion depth of the source).
-/

namespace UMLS

/-! ## Relation parser (`parse_umls`) -/

/-- Accumulated state of the parser: the two categorised edge sets, the
set of observed relation-type codes, the per-edge occurrence counter and
the set of self-loop records. -/
structure ParseState where
  parentChild : List (String × String)
  broaderThan : List (String × String)
  relTypes : List String
  dupEdges : List ((String × String) × Nat)
  selfLoops : List (String × String)
deriving Repr, DecidableEq

def emptyParse : ParseState := ⟨[], [], [], [], []⟩

/-- Add an element to a set modelled as a duplicate-free list
(Python `set.add`). -/
def insertOnce {β : Type} [DecidableEq β] (x : β) (l : List β) : List β :=
  if x ∈ l then l else l ++ [x]

/-- Increment the occurrence counter of edge `e`
(Python `Counter[edge] += 1`). -/
def bump (e : String × String) :
    List ((String × String) × Nat) → List ((String × String) × Nat)
  | [] => [(e, 1)]
  | (e', n) :: rest =>
    if e' = e then (e', n + 1) :: rest else (e', n) :: bump e rest

/-- Look up the count stored for edge `e` (0 when absent, as for a
Python `Counter`). -/
def getCount (m : List ((String × String) × Nat)) (e : String × String) : Nat :=
  match m with
  | [] => 0
  | (e', n) :: rest => if e' = e then n else getCount rest e

/-- The orientation table of `parse_umls` (lines 68-77): `some` exactly
for the four relevant codes, with the oriented pair the code dictates. -/
def orientEdge (source target rel : String) : Option (String × String) :=
  if rel = "CHD" then some (target, source)
  else if rel = "PAR" then some (source, target)
  else if rel = "RB" then some (source, target)
  else if rel = "RN" then some (target, source)
  else none

/-- Process one well-formed record (lines 60-86 of the source): record
the relation type, divert self-loops, orient the edge, count it, and
add it to the category's set. -/
def processRecord (st : ParseState) (source target rel : String) : ParseState :=
  let st1 := { st with relTypes := insertOnce rel st.relTypes }
  if source = target then
    { st1 with selfLoops := insertOnce (source, rel) st1.selfLoops }
  else
    match orientEdge source target rel with
    | none => st1
    | some edge =>
      let st2 := { st1 with dupEdges := bump edge st1.dupEdges }
      if rel = "CHD" ∨ rel = "PAR" then
        { st2 with parentChild := insertOnce edge st2.parentChild }
      else
        { st2 with broaderThan := insertOnce edge st2.broaderThan }

/-- ASCII whitespace, the character class Python's `str.strip` removes
from this dataset's fields. -/
def isSpace (c : Char) : Bool := c = ' ' || c = '\t' || c = '\n' || c = '\r'

/-- Python `str.strip()`: drop leading and trailing whitespace. -/
def pyStrip (s : String) : String :=
  ⟨((s.data.dropWhile isSpace).reverse.dropWhile isSpace).reverse⟩

/-- Split a character list at every occurrence of `sep`
(`acc` holds the current field reversed). -/
def splitChars (sep : Char) : List Char → List Char → List (List Char)
  | [], acc => [acc.reverse]
  | c :: cs, acc =>
    if c = sep then acc.reverse :: splitChars sep cs []
    else splitChars sep cs (c :: acc)

/-- Python `str.split(sep)` for a one-character separator. -/
def pySplit (sep : Char) (s : String) : List String :=
  (splitChars sep s.data []).map String.mk

/-- Python `str.startswith` for a one-character prefix. -/
def pyStartsWith (s : String) (c : Char) : Bool :=
  match s.data with
  | [] => false
  | d :: _ => d = c

/-- Line admission and field extraction (lines 48-58): skip comment and
blank lines, split the stripped line on `|`, require at least five
fields, and return the stripped (source, target, rel) fields 0, 4, 3. -/
def parseLine (line : String) : Option (String × String × String) :=
  if pyStartsWith line '#' || pyStrip line = "" then none
  else
    let parts := pySplit '|' (pyStrip line)
    if parts.length < 5 then none
    else some (pyStrip (parts.getD 0 ""), (pyStrip (parts.getD 4 ""), pyStrip (parts.getD 3 "")))

def processLine (st : ParseState) (line : String) : ParseState :=
  match parseLine line with
  | none => st
  | some (s, t, r) => processRecord st s t r

/-- The parser main loop over the input lines. -/
def parse_umls (lines : List String) : ParseState :=
  lines.foldl processLine emptyParse

/-! ## Directed graphs -/

/-- A directed graph given, as `nx.DiGraph.add_edges_from` receives it,
by its list of edges; all queries are membership-based. -/
abbrev Graph (α : Type) := List (α × α)

variable {α : Type} [LinearOrder α]

def hasEdge (g : Graph α) (u v : α) : Bool := decide ((u, v) ∈ g)

/-- The node set of the graph: every endpoint of some edge. -/
def nodesOf (g : Graph α) : List α :=
  (g.foldr (fun e acc => e.1 :: e.2 :: acc) []).dedup

/-- Successors of `u` (`graph.neighbors` of a `DiGraph`). -/
def neighbors (g : Graph α) (u : α) : List α :=
  (g.filterMap (fun e => if e.1 = u then some e.2 else none)).dedup

/-- `sorted(graph.nodes())` (line 120). -/
def sortedNodes (g : Graph α) : List α := List.insertionSort (· ≤ ·) (nodesOf g)

/-- `sorted(graph.neighbors(node))` (line 161). -/
def sortedNeighbors (g : Graph α) (u : α) : List α :=
  List.insertionSort (· ≤ ·) (neighbors g u)

/-- One edge step of the graph, as a relation. -/
def EdgeRel (g : Graph α) (u v : α) : Prop := hasEdge g u v = true

/-- Reachability: the reflexive-transitive closure of the edge step. -/
def Reaches (g : Graph α) : α → α → Prop := Relation.ReflTransGen (EdgeRel g)

/-! ## Cycle canonicalisation and validation -/

/-- `normalize_cycle` (lines 368-383): rotate the cycle so that it
starts at its minimum element, keeping relative order. -/
def normalize_cycle : List α → List α
  | [] => []
  | x :: xs =>
    let m := xs.foldl min x
    (x :: xs).drop ((x :: xs).indexOf m) ++ (x :: xs).take ((x :: xs).indexOf m)

/-- `validate_cycle` (lines 386-405): every consecutive pair, wraparound
included, must be an edge of the graph.  The source iterates `i` over
`range(len(cycle))` pairing `cycle[i]` with `cycle[(i+1) % len]`; zipping
with the 1-rotation yields exactly those pairs. -/
def validate_cycle (g : Graph α) (c : List α) : Bool :=
  (c.zip (c.rotate 1)).all (fun p => hasEdge g p.1 p.2)

/-! ## Cycle detector (`detect_cycles`) -/

/-- One reported cycle: its node sequence and its list of consecutive
`[u, v]` edge pairs, wraparound included (lines 143-149). -/
structure CycleInfo (α : Type) where
  nodes : List α
  paths : List (List α)
deriving Repr, DecidableEq

/-- The `paths` field built for an accepted cycle (lines 145-148). -/
def mkEdgePairs (c : List α) : List (List α) :=
  (c.zip (c.rotate 1)).map (fun p => [p.1, p.2])

/-- The mutable state shared by the recursive DFS of `detect_cycles`:
`visited`, `rec_stack`, the current `path`, the set of canonical forms
already recorded, and the accumulated output list. -/
structure DfsState (α : Type) where
  visited : List α
  recStack : List α
  path : List α
  uniqueCycles : List (List α)
  cycles : List (CycleInfo α)
deriving Repr, DecidableEq

/-- `dfs_cycle` (lines 122-165), with explicit state threading and a
fuel argument standing for the call depth available. -/
def dfs (g : Graph α) : Nat → α → DfsState α → DfsState α
  | 0, _, st => st
  | fuel + 1, node, st =>
    if node ∈ st.recStack then
      let cycle := st.path.drop (st.path.indexOf node)
      let normalized := normalize_cycle cycle
      if normalized ∉ st.uniqueCycles ∧ validate_cycle g cycle = true then
        { st with
          uniqueCycles := st.uniqueCycles ++ [normalized]
          cycles := st.cycles ++ [⟨cycle, mkEdgePairs cycle⟩] }
      else st
    else if node ∈ st.visited then st
    else
      let st1 := { st with
        visited := st.visited ++ [node]
        recStack := st.recStack ++ [node]
        path := st.path ++ [node] }
      let st2 := (sortedNeighbors g node).foldl (fun s n => dfs g fuel n s) st1
      { st2 with path := st2.path.dropLast, recStack := st2.recStack.erase node }

/-- `detect_cycles` (lines 102-179), timing aside: run the DFS from
every node in sorted order, skipping nodes already fully explored, each
top-level call starting from a fresh empty path. -/
def detect_cycles (g : Graph α) : List (CycleInfo α) :=
  let fuel := (sortedNodes g).length + 1
  ((sortedNodes g).foldl
    (fun st node => if node ∈ st.visited then st else dfs g fuel node { st with path := [] })
    ⟨[], [], [], [], []⟩).cycles

/-! ## Reachability sets and shortest paths (`nx.descendants`,
`nx.shortest_path`) -/

/-- One breadth step: the set together with all successors of its
members. -/
def stepReach (g : Graph α) (S : List α) : List α :=
  (S ++ S.flatMap (fun u => neighbors g u)).dedup

/-- `k` breadth steps from the singleton `{s}`. -/
def reachAux (g : Graph α) (s : α) : Nat → List α
  | 0 => [s]
  | k + 1 => stepReach g (reachAux g s k)

/-- All nodes reachable from `s` (including `s`): enough breadth steps
to reach the closure. -/
def reachSet (g : Graph α) (s : α) : List α := reachAux g s (nodesOf g).length

/-- `nx.descendants(graph, s)`: every node reachable from `s`, `s`
itself excluded. -/
def descendants (g : Graph α) (s : α) : List α :=
  (reachSet g s).filter (fun v => v ≠ s)

/-- Backward construction of a breadth-minimal path from `s` to `t`,
descending through the breadth layers; meaningful when `t` is inside
layer `k`.  This realises the `nx.shortest_path` contract — *a* shortest
path — with one tie-break choice (first forward-layer predecessor in
edge-list order); the library's own tie-break is embedded separately as
`nx_shortest_path` below and is used where the choice is load-bearing. -/
def buildBack (g : Graph α) (s : α) : Nat → α → List α
  | 0, t => [t]
  | k + 1, t =>
    if t ∈ reachAux g s k then buildBack g s k t
    else
      match (reachAux g s k).find? (fun u => hasEdge g u t) with
      | some u => buildBack g s k u ++ [t]
      | none => [t]

/-- The `nx.shortest_path(graph, s, t)` contract: `some` shortest path
exactly when `t` is reachable from `s` (the `NetworkXNoPath` branch of
the source is the `none` case). -/
def shortest_path (g : Graph α) (s t : α) : Option (List α) :=
  if t ∈ reachSet g s then some (buildBack g s (nodesOf g).length t) else none

/-! ## The library's own shortest path: bidirectional BFS

With `weight=None`, `nx.shortest_path` runs
`bidirectional_shortest_path`: two breadth searches, one forward from
the source over successor adjacency and one backward from the target
over predecessor adjacency, expanding the smaller fringe first and
stopping at the first meeting node.  Which of several tied shortest
paths it returns is decided by the adjacency iteration orders, i.e. by
the order in which the edges were inserted into the `DiGraph`.  The
functions below embed that algorithm exactly; they matter for the
determinism analysis (claim C8), where the tie-break is load-bearing. -/

/-- Predecessor adjacency of `v` (`G.pred[v]`), in edge-insertion
order. -/
def predecessors (g : Graph α) (v : α) : List α :=
  (g.filterMap (fun e => if e.2 = v then some e.1 else none)).dedup

/-- The `pred`/`succ` dictionaries of `_bidirectional_pred_succ`:
insertion-ordered maps from a node to its parent (`none` marks the two
roots). -/
abbrev BfsDict (α : Type) := List (α × Option α)

def dictHas (d : BfsDict α) (x : α) : Bool := d.any (fun p => decide (p.1 = x))

def dictGet (d : BfsDict α) (x : α) : Option (Option α) :=
  (d.find? (fun p => decide (p.1 = x))).map (fun p => p.2)

/-- The inner forward loop `for w in Gsucc[v]` of
`_bidirectional_pred_succ`: record unseen successors in `pred` and the
fringe, and stop at the first `w` already in `succ`. -/
def fwdScan (succD : BfsDict α) (v : α) :
    List α → BfsDict α → List α → (BfsDict α × List α) ⊕ (BfsDict α × α)
  | [], pred, fringe => Sum.inl (pred, fringe)
  | w :: ws, pred, fringe =>
    let pf := if dictHas pred w then (pred, fringe)
      else (pred ++ [(w, some v)], fringe ++ [w])
    if dictHas succD w then Sum.inr (pf.1, w)
    else fwdScan succD v ws pf.1 pf.2

/-- One forward level: `for v in this_level`. -/
def fwdLevel (g : Graph α) (succD : BfsDict α) :
    List α → BfsDict α → List α → (BfsDict α × List α) ⊕ (BfsDict α × α)
  | [], pred, fringe => Sum.inl (pred, fringe)
  | v :: vs, pred, fringe =>
    match fwdScan succD v (neighbors g v) pred fringe with
    | Sum.inl (pred', fringe') => fwdLevel g succD vs pred' fringe'
    | Sum.inr r => Sum.inr r

/-- The inner reverse loop `for w in Gpred[v]`: record unseen
predecessors in `succ` and the fringe, and stop at the first `w` already
in `pred`. -/
def revScan (predD : BfsDict α) (v : α) :
    List α → BfsDict α → List α → (BfsDict α × List α) ⊕ (BfsDict α × α)
  | [], succ, fringe => Sum.inl (succ, fringe)
  | w :: ws, succ, fringe =>
    let sf := if dictHas succ w then (succ, fringe)
      else (succ ++ [(w, some v)], fringe ++ [w])
    if dictHas predD w then Sum.inr (sf.1, w)
    else revScan predD v ws sf.1 sf.2

/-- One reverse level. -/
def revLevel (g : Graph α) (predD : BfsDict α) :
    List α → BfsDict α → List α → (BfsDict α × List α) ⊕ (BfsDict α × α)
  | [], succ, fringe => Sum.inl (succ, fringe)
  | v :: vs, succ, fringe =>
    match revScan predD v (predecessors g v) succ fringe with
    | Sum.inl (succ', fringe') => revLevel g predD vs succ' fringe'
    | Sum.inr r => Sum.inr r

/-- The `while forward_fringe and reverse_fringe` loop of
`_bidirectional_pred_succ`, expanding whichever fringe is not larger;
`none` is the `NetworkXNoPath` exit. -/
def bidirLoop (g : Graph α) :
    Nat → BfsDict α → BfsDict α → List α → List α →
      Option (BfsDict α × BfsDict α × α)
  | 0, _, _, _, _ => none
  | fuel + 1, pred, succ, ff, rf =>
    if ff.isEmpty || rf.isEmpty then none
    else if ff.length ≤ rf.length then
      match fwdLevel g succ ff pred [] with
      | Sum.inl (pred', fringe') => bidirLoop g fuel pred' succ fringe' rf
      | Sum.inr (pred', w) => some (pred', succ, w)
    else
      match revLevel g pred rf succ [] with
      | Sum.inl (succ', fringe') => bidirLoop g fuel pred succ' ff fringe'
      | Sum.inr (succ', w) => some (pred, succ', w)

/-- `_bidirectional_pred_succ(G, source, target)`. -/
def nx_bidir_pred_succ (g : Graph α) (s t : α) :
    Option (BfsDict α × BfsDict α × α) :=
  if t = s then some ([(t, none)], [(s, none)], s)
  else bidirLoop g (2 * (nodesOf g).length + 2) [(s, none)] [(t, none)] [s] [t]

/-- The `while w is not None: path.append(w); w = pred[w]` rebuild of
the forward half, already reversed: the path from the source to `w`. -/
def walkPred (pred : BfsDict α) : Nat → α → List α
  | 0, w => [w]
  | fuel + 1, w =>
    match dictGet pred w with
    | some (some v) => walkPred pred fuel v ++ [w]
    | _ => [w]

/-- The `w = succ[path[-1]]; while w is not None` rebuild of the reverse
half: the nodes after the meeting point. -/
def walkSucc (succ : BfsDict α) : Nat → α → List α
  | 0, _ => []
  | fuel + 1, u =>
    match dictGet succ u with
    | some (some v) => v :: walkSucc succ fuel v
    | _ => []

/-- `nx.bidirectional_shortest_path(G, s, t)`: meet in the middle, then
concatenate the two rebuilt halves at the meeting node. -/
def nx_shortest_path (g : Graph α) (s t : α) : Option (List α) :=
  match nx_bidir_pred_succ g s t with
  | none => none
  | some (pred, succ, w) =>
    some (walkPred pred ((nodesOf g).length + 1) w ++
      walkSucc succ ((nodesOf g).length + 1) w)

/-! ## Violation detector (`detect_broader_than_violations`) -/

/-- One reported broader-than violation (lines 221-227). -/
structure Violation (α : Type) where
  source : α
  target : α
  circular_path : List α
deriving Repr, DecidableEq

/-- The body of `detect_broader_than_violations` (lines 182-235), timing
aside, over a given shortest-path routine `sp`: for every node `source`
and every descendant `target`, if `source` is in turn a descendant of
`target`, emit the pair with the concatenation of a path there and a
path back (dropping the duplicated joint node); a `none` from `sp` is
the caught `NetworkXNoPath`. -/
def detect_violations_with (g : Graph α) (sp : α → α → Option (List α)) :
    List (Violation α) :=
  (nodesOf g).flatMap (fun source =>
    (descendants g source).filterMap (fun target =>
      if source ∈ descendants g target then
        match sp source target, sp target source with
        | some p1, some p2 => some ⟨source, target, p1 ++ p2.drop 1⟩
        | _, _ => none
      else none))

/-- The violation detector with the contract-level shortest path. -/
def detect_broader_than_violations (g : Graph α) : List (Violation α) :=
  detect_violations_with g (shortest_path g)

/-- The violation detector with the library's own bidirectional-BFS
tie-breaking, the exact run-time behaviour of the source. -/
def nx_detect_broader_than_violations (g : Graph α) : List (Violation α) :=
  detect_violations_with g (nx_shortest_path g)

/-! ## Lemmas about the set and counter models -/

theorem mem_insertOnce {β : Type} [DecidableEq β] {x y : β} {l : List β} :
    y ∈ insertOnce x l ↔ y = x ∨ y ∈ l := by
  unfold insertOnce
  split
  · rename_i hx
    constructor
    · exact fun h => Or.inr h
    · rintro (rfl | h)
      · exact hx
      · exact h
  · simp [or_comm]

theorem nodup_insertOnce {β : Type} [DecidableEq β] {x : β} {l : List β}
    (h : l.Nodup) : (insertOnce x l).Nodup := by
  unfold insertOnce
  split
  · exact h
  · rename_i hx
    simp [List.nodup_append, h, hx]

theorem subset_insertOnce {β : Type} [DecidableEq β] (x : β) (l : List β) :
    l ⊆ insertOnce x l := by
  intro y hy
  exact mem_insertOnce.mpr (Or.inr hy)

theorem getCount_bump (m : List ((String × String) × Nat)) (e f : String × String) :
    getCount (bump e m) f = getCount m f + (if e = f then 1 else 0) := by
  induction m with
  | nil => simp [bump, getCount]
  | cons hd rest ih =>
    obtain ⟨e', n⟩ := hd
    by_cases h1 : e' = e
    · subst h1
      by_cases h2 : e' = f <;> simp [bump, getCount, h2]
    · by_cases h2 : e' = f
      · subst h2
        have : ¬ e = e' := fun h => h1 h.symm
        simp [bump, getCount, h1, this]
      · simp [bump, getCount, h1, h2, ih]

theorem foldl_preserve {σ β : Type _} {P : σ → Prop} {f : σ → β → σ}
    (hf : ∀ s x, P s → P (f s x)) :
    ∀ (l : List β) (s : σ), P s → P (List.foldl f s l)
  | [], _, hs => hs
  | x :: xs, s, hs => foldl_preserve hf xs (f s x) (hf s x hs)

theorem foldl_congr_fn {σ β : Type _} {f1 f2 : σ → β → σ}
    (h : ∀ s x, f1 s x = f2 s x) :
    ∀ (l : List β) (s : σ), List.foldl f1 s l = List.foldl f2 s l
  | [], _ => rfl
  | x :: xs, s => by rw [List.foldl_cons, List.foldl_cons, h, foldl_congr_fn h xs]

/-! ## Parser lemmas -/

theorem selfLoops_subset_processRecord (st : ParseState) (s t rel : String) :
    st.selfLoops ⊆ (processRecord st s t rel).selfLoops := by
  unfold processRecord
  split
  · exact subset_insertOnce _ _
  · split
    · simp
    · split <;> simp

theorem selfLoops_subset_processLine (st : ParseState) (line : String) :
    st.selfLoops ⊆ (processLine st line).selfLoops := by
  unfold processLine
  cases h : parseLine line with
  | none => simp
  | some r => exact selfLoops_subset_processRecord st r.1 r.2.1 r.2.2

/-- The oriented edge a whole input line contributes to the shared
occurrence counter: `none` for skipped, self-loop or other-code lines. -/
def orientOfLine (line : String) : Option (String × String) :=
  match parseLine line with
  | none => none
  | some (s, t, rel) => if s = t then none else orientEdge s t rel

theorem getCount_processLine (st : ParseState) (line : String) (e : String × String) :
    getCount (processLine st line).dupEdges e =
      getCount st.dupEdges e + (if orientOfLine line = some e then 1 else 0) := by
  unfold processLine orientOfLine
  cases h : parseLine line with
  | none => simp
  | some r =>
    obtain ⟨s, t, rel⟩ := r
    unfold processRecord
    by_cases hst : s = t
    · simp [hst]
    · simp only [hst, if_neg, ite_false]
      cases horient : orientEdge s t rel with
      | none => simp
      | some edge =>
        by_cases hcat : rel = "CHD" ∨ rel = "PAR" <;>
          simp [hcat, getCount_bump, eq_comm]

theorem edge_nodup_processLine (st : ParseState) (line : String)
    (h : st.parentChild.Nodup ∧ st.broaderThan.Nodup) :
    (processLine st line).parentChild.Nodup ∧ (processLine st line).broaderThan.Nodup := by
  unfold processLine
  cases hp : parseLine line with
  | none => exact h
  | some r =>
    obtain ⟨s, t, rel⟩ := r
    unfold processRecord
    by_cases hst : s = t
    · simpa [hst] using h
    · simp only [hst, if_neg, ite_false]
      cases horient : orientEdge s t rel with
      | none => exact h
      | some edge =>
        by_cases hcat : rel = "CHD" ∨ rel = "PAR" <;>
          simp [hcat, nodup_insertOnce, h.1, h.2]

/-! ## Claim C3: orientation table -/

/-- C3: for a record with `source ≠ target`, code CHD yields edge
(target, source) into the parent-child set, PAR yields (source, target)
into the parent-child set, RB yields (source, target) into the
broader-than set, RN yields (target, source) into the broader-than set,
each leaving the other category's set unchanged; any other code leaves
both edge sets unchanged. -/
theorem claim3_orientation (st : ParseState) (s t rel : String) (hst : s ≠ t) :
    (rel = "CHD" →
      (processRecord st s t rel).parentChild = insertOnce (t, s) st.parentChild ∧
      (processRecord st s t rel).broaderThan = st.broaderThan) ∧
    (rel = "PAR" →
      (processRecord st s t rel).parentChild = insertOnce (s, t) st.parentChild ∧
      (processRecord st s t rel).broaderThan = st.broaderThan) ∧
    (rel = "RB" →
      (processRecord st s t rel).broaderThan = insertOnce (s, t) st.broaderThan ∧
      (processRecord st s t rel).parentChild = st.parentChild) ∧
    (rel = "RN" →
      (processRecord st s t rel).broaderThan = insertOnce (t, s) st.broaderThan ∧
      (processRecord st s t rel).parentChild = st.parentChild) ∧
    (rel ∉ (["CHD", "PAR", "RB", "RN"] : List String) →
      (processRecord st s t rel).parentChild = st.parentChild ∧
      (processRecord st s t rel).broaderThan = st.broaderThan) := by
  refine ⟨?_, ?_, ?_, ?_, ?_⟩ <;> intro h
  · subst h; simp [processRecord, orientEdge, hst]
  · subst h; simp [processRecord, orientEdge, hst]
  · subst h; simp [processRecord, orientEdge, hst]
  · subst h; simp [processRecord, orientEdge, hst]
  · simp only [List.mem_cons, List.mem_singleton, not_or] at h
    obtain ⟨h1, h2, h3, h4⟩ := h
    simp [processRecord, orientEdge, hst, h1, h2, h3, h4]

/-- Witness for C3 at a concrete CHD record. -/
theorem claim3_orientation_witness :
    ("A" : String) ≠ "B" ∧
    ((processRecord emptyParse "A" "B" "CHD").parentChild =
        insertOnce ("B", "A") emptyParse.parentChild ∧
      (processRecord emptyParse "A" "B" "CHD").broaderThan = emptyParse.broaderThan) :=
  ⟨by decide, (claim3_orientation emptyParse "A" "B" "CHD" (by decide)).1 rfl⟩

/-! ## Claim C6: self-loop exclusion -/

/-- C6: a record with equal source and target adds no edge to either
category's set, whatever the code, and its (source, code) pair is
present in the self-loop set returned by the parser. -/
theorem claim6_selfloop (lines : List String) (line s rel : String)
    (hmem : line ∈ lines) (hline : parseLine line = some (s, s, rel)) :
    (∀ st : ParseState,
      (processRecord st s s rel).parentChild = st.parentChild ∧
      (processRecord st s s rel).broaderThan = st.broaderThan) ∧
    (s, rel) ∈ (parse_umls lines).selfLoops := by
  constructor
  · intro st
    simp [processRecord]
  · obtain ⟨pre, post, rfl⟩ := List.append_of_mem hmem
    unfold parse_umls
    rw [List.foldl_append, List.foldl_cons]
    refine foldl_preserve (fun st l h => selfLoops_subset_processLine st l h) post _ ?_
    have : processLine (List.foldl processLine emptyParse pre) line =
        processRecord (List.foldl processLine emptyParse pre) s s rel := by
      unfold processLine
      rw [hline]
    rw [this]
    unfold processRecord
    simp [mem_insertOnce]

/-- Witness for C6 on a one-line input with an RB self-loop. -/
theorem claim6_selfloop_witness :
    parseLine "E|x|y|RB|E" = some ("E", "E", "RB") ∧
    (processRecord emptyParse "E" "E" "RB").parentChild = emptyParse.parentChild ∧
    (processRecord emptyParse "E" "E" "RB").broaderThan = emptyParse.broaderThan ∧
    ("E", "RB") ∈ (parse_umls ["E|x|y|RB|E"]).selfLoops := by
  have h := claim6_selfloop ["E|x|y|RB|E"] "E|x|y|RB|E" "E" "RB"
    (by simp) (by decide)
  exact ⟨by decide, (h.1 emptyParse).1, (h.1 emptyParse).2, h.2⟩

/-! ## Claim C7: the shared duplicate-edge counter -/

theorem getCount_parse (lines : List String) (e : String × String) :
    ∀ st : ParseState,
      getCount (lines.foldl processLine st).dupEdges e =
        getCount st.dupEdges e +
          lines.countP (fun line => decide (orientOfLine line = some e)) := by
  induction lines with
  | nil => intro st; simp
  | cons line rest ih =>
    intro st
    rw [List.foldl_cons, ih, getCount_processLine, List.countP_cons]
    have : (decide (orientOfLine line = some e) = true) ↔ orientOfLine line = some e :=
      decide_eq_true_iff
    by_cases h : orientOfLine line = some e
    · simp [h]
      omega
    · simp [h]

/-- C7: for every oriented edge, the occurrence counter returned by the
parser equals the number of input lines carrying a non-self-loop record
with one of the four codes that orients to that exact pair (both
categories feeding one shared counter), while the two edge sets stay
duplicate-free. -/
theorem claim7_counter (lines : List String) (e : String × String) :
    getCount (parse_umls lines).dupEdges e =
      lines.countP (fun line => decide (orientOfLine line = some e)) ∧
    (parse_umls lines).parentChild.Nodup ∧
    (parse_umls lines).broaderThan.Nodup := by
  refine ⟨?_, ?_⟩
  · have h := getCount_parse lines e emptyParse
    simpa [emptyParse, getCount] using h
  · exact foldl_preserve (fun st l h => edge_nodup_processLine st l h) lines emptyParse
      (by simp [emptyParse])

/-! ## Claim C9: malformed lines are skipped without effect -/

/-- C9: a blank line, a comment line, or a line with fewer than five
`|`-separated fields yields no record at all, leaves the parser state
untouched, and parsing an input with such a line gives exactly the
result of parsing the input without it. -/
theorem claim9_malformed (line : String)
    (h : pyStartsWith line '#' = true ∨ pyStrip line = "" ∨
      (pySplit '|' (pyStrip line)).length < 5) :
    parseLine line = none ∧
    (∀ st : ParseState, processLine st line = st) ∧
    (∀ pre post : List String,
      parse_umls (pre ++ line :: post) = parse_umls (pre ++ post)) := by
  have hnone : parseLine line = none := by
    unfold parseLine
    by_cases hc : (pyStartsWith line '#' || pyStrip line = "") = true
    · simp [hc]
    · have hlen : (pySplit '|' (pyStrip line)).length < 5 := by
        rcases h with h1 | h2 | h3
        · exact absurd (by simp [h1]) hc
        · exact absurd (by simp [h2]) hc
        · exact h3
      simp [hc, hlen]
  have hid : ∀ st : ParseState, processLine st line = st := by
    intro st
    unfold processLine
    rw [hnone]
  refine ⟨hnone, hid, ?_⟩
  intro pre post
  unfold parse_umls
  rw [List.foldl_append, List.foldl_append, List.foldl_cons, hid]

/-- Witness for C9 on a comment line, a blank line and a short line. -/
theorem claim9_malformed_witness :
    parseLine "# comment" = none ∧
    processLine emptyParse "" = emptyParse ∧
    parse_umls (["A|x|y|PAR|B"] ++ "a|b" :: []) = parse_umls (["A|x|y|PAR|B"] ++ []) :=
  ⟨(claim9_malformed "# comment" (Or.inl (by decide))).1,
   (claim9_malformed "" (Or.inr (Or.inl (by decide)))).2.1 emptyParse,
   (claim9_malformed "a|b" (Or.inr (Or.inr (by decide)))).2.2 ["A|x|y|PAR|B"] []⟩

/-! ## Graph membership lemmas -/

theorem hasEdge_iff {g : Graph α} {u v : α} : hasEdge g u v = true ↔ (u, v) ∈ g :=
  decide_eq_true_iff

theorem mem_neighbors {g : Graph α} {u v : α} : v ∈ neighbors g u ↔ (u, v) ∈ g := by
  unfold neighbors
  rw [List.mem_dedup, List.mem_filterMap]
  constructor
  · rintro ⟨e, he, hf⟩
    by_cases h : e.1 = u
    · rw [if_pos h] at hf
      injection hf with hv
      subst hv
      have he2 : e = (u, e.2) := Prod.ext h rfl
      rwa [he2] at he
    · rw [if_neg h] at hf
      cases hf
  · intro h
    exact ⟨(u, v), h, by simp⟩

omit [LinearOrder α] in
theorem mem_endpoints {x : α} :
    ∀ (g : Graph α),
      x ∈ g.foldr (fun e acc => e.1 :: e.2 :: acc) [] ↔ ∃ e ∈ g, x = e.1 ∨ x = e.2
  | [] => by simp
  | e :: rest => by
    rw [List.foldr_cons, List.mem_cons, List.mem_cons, mem_endpoints rest]
    constructor
    · rintro (h | h | ⟨e', he', h'⟩)
      · exact ⟨e, List.mem_cons_self e rest, Or.inl h⟩
      · exact ⟨e, List.mem_cons_self e rest, Or.inr h⟩
      · exact ⟨e', List.mem_cons_of_mem _ he', h'⟩
    · rintro ⟨e', he', h'⟩
      rcases List.mem_cons.mp he' with rfl | he'
      · rcases h' with h | h
        · exact Or.inl h
        · exact Or.inr (Or.inl h)
      · exact Or.inr (Or.inr ⟨e', he', h'⟩)

theorem mem_nodesOf {g : Graph α} {x : α} :
    x ∈ nodesOf g ↔ ∃ e ∈ g, x = e.1 ∨ x = e.2 := by
  unfold nodesOf
  rw [List.mem_dedup]
  exact mem_endpoints g

theorem left_mem_nodesOf {g : Graph α} {u v : α} (h : (u, v) ∈ g) : u ∈ nodesOf g :=
  mem_nodesOf.mpr ⟨(u, v), h, Or.inl rfl⟩

theorem right_mem_nodesOf {g : Graph α} {u v : α} (h : (u, v) ∈ g) : v ∈ nodesOf g :=
  mem_nodesOf.mpr ⟨(u, v), h, Or.inr rfl⟩

theorem nodup_nodesOf (g : Graph α) : (nodesOf g).Nodup := List.nodup_dedup _

theorem nodup_neighbors (g : Graph α) (u : α) : (neighbors g u).Nodup :=
  List.nodup_dedup _

theorem mem_sortedNodes {g : Graph α} {x : α} : x ∈ sortedNodes g ↔ x ∈ nodesOf g :=
  (List.perm_insertionSort _ _).mem_iff

theorem mem_sortedNeighbors {g : Graph α} {u v : α} :
    v ∈ sortedNeighbors g u ↔ (u, v) ∈ g :=
  ((List.perm_insertionSort _ _).mem_iff).trans mem_neighbors

/-! ## DFS frame: a call returns with `path` and `rec_stack` exactly as
it found them -/

theorem dfs_frame (g : Graph α) :
    ∀ (fuel : Nat) (node : α) (st : DfsState α),
      (dfs g fuel node st).path = st.path ∧ (dfs g fuel node st).recStack = st.recStack := by
  intro fuel
  induction fuel with
  | zero => intro node st; exact ⟨rfl, rfl⟩
  | succ fuel ih =>
    intro node st
    have hfold : ∀ (l : List α) (s : DfsState α),
        (List.foldl (fun s n => dfs g fuel n s) s l).path = s.path ∧
        (List.foldl (fun s n => dfs g fuel n s) s l).recStack = s.recStack := by
      intro l
      induction l with
      | nil => intro s; exact ⟨rfl, rfl⟩
      | cons n ns ihl =>
        intro s
        rw [List.foldl_cons]
        refine ⟨((ihl _).1).trans (ih n s).1, ((ihl _).2).trans (ih n s).2⟩
    simp only [dfs]
    split
    · split <;> exact ⟨rfl, rfl⟩
    · split
      · exact ⟨rfl, rfl⟩
      · rename_i hrec hvis
        constructor
        · rw [(hfold _ _).1]
          exact List.dropLast_concat
        · rw [(hfold _ _).2]
          rw [List.erase_append_right _ hrec, List.erase_cons_head]
          exact List.append_nil _

theorem foldl_dfs_frame (g : Graph α) (fuel : Nat) :
    ∀ (l : List α) (s : DfsState α),
      (List.foldl (fun s n => dfs g fuel n s) s l).path = s.path ∧
      (List.foldl (fun s n => dfs g fuel n s) s l).recStack = s.recStack := by
  intro l
  induction l with
  | nil => intro s; exact ⟨rfl, rfl⟩
  | cons n ns ihl =>
    intro s
    rw [List.foldl_cons]
    exact ⟨((ihl _).1).trans (dfs_frame g fuel n s).1,
      ((ihl _).2).trans (dfs_frame g fuel n s).2⟩

/-! ## DFS invariant: every recorded cycle is a valid duplicate-free
cycle, recorded once per canonical form -/

/-- What holds of every entry the detector has recorded. -/
def CycleOK (g : Graph α) (c : CycleInfo α) : Prop :=
  validate_cycle g c.nodes = true ∧ c.nodes.Nodup ∧ c.nodes ≠ [] ∧
    c.paths = mkEdgePairs c.nodes

/-- The DFS invariant: the current path is duplicate-free, the recursion
stack holds exactly the path's members, every recorded cycle is `CycleOK`,
the recorded canonical forms are pairwise distinct, and each recorded
cycle's canonical form is registered in `uniqueCycles`. -/
def Inv (g : Graph α) (st : DfsState α) : Prop :=
  st.path.Nodup ∧
  (∀ v, v ∈ st.recStack ↔ v ∈ st.path) ∧
  (∀ c ∈ st.cycles, CycleOK g c) ∧
  (st.cycles.map (fun c => normalize_cycle c.nodes)).Nodup ∧
  (∀ c ∈ st.cycles, normalize_cycle c.nodes ∈ st.uniqueCycles)

theorem dfs_inv (g : Graph α) :
    ∀ (fuel : Nat) (node : α) (st : DfsState α), Inv g st → Inv g (dfs g fuel node st) := by
  intro fuel
  induction fuel with
  | zero => intro node st h; exact h
  | succ fuel ih =>
    intro node st h
    obtain ⟨hnd, hrs, hok, hcanon, hsub⟩ := h
    simp only [dfs]
    split
    · rename_i hrec
      split
      · rename_i hcond
        obtain ⟨hnew, hval⟩ := hcond
        refine ⟨hnd, hrs, ?_, ?_, ?_⟩
        · intro c hc
          rw [List.mem_append] at hc
          rcases hc with hc | hc
          · exact hok c hc
          · rw [List.mem_singleton] at hc
            subst hc
            refine ⟨hval, (List.drop_sublist _ _).nodup hnd, ?_, rfl⟩
            have hmem : node ∈ st.path := (hrs node).mp hrec
            have hidx : st.path.indexOf node < st.path.length :=
              List.indexOf_lt_length.mpr hmem
            intro hemp
            have hlen := congrArg List.length hemp
            rw [List.length_drop] at hlen
            simp at hlen
            omega
        · rw [List.map_append, List.nodup_append]
          refine ⟨hcanon, List.nodup_singleton _, ?_⟩
          intro a ha hb
          rw [List.map_singleton, List.mem_singleton] at hb
          subst hb
          rw [List.mem_map] at ha
          obtain ⟨c, hc, hcn⟩ := ha
          exact hnew (hcn ▸ hsub c hc)
        · intro c hc
          rw [List.mem_append] at hc
          rcases hc with hc | hc
          · exact List.mem_append.mpr (Or.inl (hsub c hc))
          · rw [List.mem_singleton] at hc
            subst hc
            exact List.mem_append.mpr (Or.inr (by simp))
      · exact ⟨hnd, hrs, hok, hcanon, hsub⟩
    · split
      · exact ⟨hnd, hrs, hok, hcanon, hsub⟩
      · rename_i hrec hvis
        have hnode_path : node ∉ st.path := fun hm => hrec ((hrs node).mpr hm)
        have h1 : Inv g { st with
            visited := st.visited ++ [node]
            recStack := st.recStack ++ [node]
            path := st.path ++ [node] } := by
          refine ⟨?_, ?_, hok, hcanon, hsub⟩
          · simp [List.nodup_append, hnd, hnode_path]
          · intro v
            simp only [List.mem_append, List.mem_singleton]
            exact or_congr_left (hrs v)
        have h2 := foldl_preserve (fun s n hInv => ih n s hInv) (sortedNeighbors g node) _ h1
        obtain ⟨h2nd, h2rs, h2ok, h2canon, h2sub⟩ := h2
        have hframe := foldl_dfs_frame g fuel (sortedNeighbors g node)
          { st with
            visited := st.visited ++ [node]
            recStack := st.recStack ++ [node]
            path := st.path ++ [node] }
        refine ⟨?_, ?_, h2ok, h2canon, h2sub⟩
        · rw [hframe.1, List.dropLast_concat]
          exact hnd
        · intro v
          rw [hframe.1, hframe.2, List.dropLast_concat,
            List.erase_append_right _ hrec, List.erase_cons_head, List.append_nil]
          exact hrs v

/-- Everything `Inv` asserts about recorded cycles holds of the final
output of `detect_cycles`, whose top-level loop additionally keeps the
recursion stack and path empty between the sorted start nodes. -/
theorem detect_cycles_inv (g : Graph α) :
    (∀ c ∈ detect_cycles g, CycleOK g c) ∧
    ((detect_cycles g).map (fun c => normalize_cycle c.nodes)).Nodup := by
  unfold detect_cycles
  have h := foldl_preserve
    (P := fun st : DfsState α => Inv g st ∧ st.recStack = [] ∧ st.path = [])
    (f := fun st node =>
      if node ∈ st.visited then st else
        dfs g ((sortedNodes g).length + 1) node { st with path := [] })
    ?_ (sortedNodes g) ⟨[], [], [], [], []⟩ ?_
  · exact ⟨h.1.2.2.1, h.1.2.2.2.1⟩
  · intro st node hP
    obtain ⟨⟨hnd, hrs, hok, hcanon, hsub⟩, hempty, hpath⟩ := hP
    dsimp only
    by_cases hv : node ∈ st.visited
    · rw [if_pos hv]
      exact ⟨⟨hnd, hrs, hok, hcanon, hsub⟩, hempty, hpath⟩
    · rw [if_neg hv]
      have hInv0 : Inv g ({ st with path := [] } : DfsState α) := by
        refine ⟨List.nodup_nil, ?_, hok, hcanon, hsub⟩
        intro v
        rw [hempty]
      have hframe := dfs_frame g ((sortedNodes g).length + 1) node
        ({ st with path := [] } : DfsState α)
      exact ⟨dfs_inv g _ node _ hInv0, hframe.2.trans hempty, hframe.1⟩
  · exact ⟨⟨List.nodup_nil, by simp, by simp, by simp, by simp⟩, rfl, rfl⟩

/-! ## Canonicalisation: rotation invariance of `normalize_cycle` -/

theorem foldlMin_mem : ∀ (xs : List α) (x : α), xs.foldl min x ∈ x :: xs
  | [], x => by simp
  | y :: ys, x => by
    rw [List.foldl_cons]
    have h := foldlMin_mem ys (min x y)
    rcases List.mem_cons.mp h with h | h
    · rcases min_choice x y with hc | hc
      · rw [h, hc]
        exact List.mem_cons_self _ _
      · rw [h, hc]
        exact List.mem_cons_of_mem _ (List.mem_cons_self _ _)
    · exact List.mem_cons_of_mem _ (List.mem_cons_of_mem _ h)

theorem foldlMin_le_init : ∀ (xs : List α) (x : α), xs.foldl min x ≤ x
  | [], x => le_refl x
  | y :: ys, x => by
    rw [List.foldl_cons]
    exact (foldlMin_le_init ys (min x y)).trans (min_le_left x y)

theorem foldlMin_le_mem : ∀ (xs : List α) (x : α) {y : α}, y ∈ xs → xs.foldl min x ≤ y
  | [], _, _, h => absurd h (List.not_mem_nil _)
  | z :: zs, x, y, h => by
    rw [List.foldl_cons]
    rcases List.mem_cons.mp h with rfl | h'
    · exact (foldlMin_le_init zs (min x y)).trans (min_le_right x y)
    · exact foldlMin_le_mem zs (min x z) h'

theorem foldlMin_le (xs : List α) (x : α) {y : α} (h : y ∈ x :: xs) :
    xs.foldl min x ≤ y := by
  rcases List.mem_cons.mp h with rfl | h'
  · exact foldlMin_le_init xs y
  · exact foldlMin_le_mem xs x h'

theorem normalize_cons (x : α) (xs : List α) :
    normalize_cycle (x :: xs) = (x :: xs).rotate ((x :: xs).indexOf (xs.foldl min x)) := by
  have hidx : (x :: xs).indexOf (xs.foldl min x) < (x :: xs).length :=
    List.indexOf_lt_length.mpr (foldlMin_mem xs x)
  rw [normalize_cycle, List.rotate_eq_drop_append_take hidx.le]

omit [LinearOrder α] in
theorem head?_rotate_lt (l : List α) {i : Nat} (hi : i < l.length) :
    (l.rotate i).head? = l[i]? := by
  rw [List.rotate_eq_drop_append_take hi.le, List.head?_append, List.head?_drop]
  rw [List.getElem?_eq_getElem hi]
  rfl

theorem head?_rotate_indexOf (l : List α) (m : α) (h : m ∈ l) :
    (l.rotate (l.indexOf m)).head? = some m := by
  have hidx : l.indexOf m < l.length := List.indexOf_lt_length.mpr h
  rw [head?_rotate_lt l hidx, List.getElem?_eq_getElem hidx]
  exact congrArg some (List.indexOf_get hidx)

omit [LinearOrder α] in
theorem rotate_inj_head (l : List α) (hnd : l.Nodup) {i j : Nat}
    (hi : i < l.length) (hj : j < l.length)
    (hh : (l.rotate i).head? = (l.rotate j).head?) : l.rotate i = l.rotate j := by
  rw [head?_rotate_lt l hi, head?_rotate_lt l hj] at hh
  obtain rfl : i = j := List.getElem?_inj hi hnd hh
  rfl

/-- Rotation invariance of the canonical form, for duplicate-free
cycles. -/
theorem normalize_rotate (c : List α) (hnd : c.Nodup) (n : Nat) :
    normalize_cycle (c.rotate n) = normalize_cycle c := by
  cases c with
  | nil => rw [List.rotate_nil]
  | cons x xs =>
    obtain ⟨y, ys, hrot⟩ : ∃ y ys, (x :: xs).rotate n = y :: ys := by
      cases h : (x :: xs).rotate n with
      | nil =>
        have hl := congrArg List.length h
        rw [List.length_rotate] at hl
        cases hl
      | cons y ys => exact ⟨y, ys, rfl⟩
    have hperm : ((x :: xs).rotate n).Perm (x :: xs) := List.rotate_perm _ n
    have hmmem : xs.foldl min x ∈ x :: xs := foldlMin_mem xs x
    have hm'mem : ys.foldl min y ∈ (x :: xs).rotate n := hrot ▸ foldlMin_mem ys y
    have hmm' : ys.foldl min y = xs.foldl min x := by
      refine le_antisymm ?_ ?_
      · have hin : xs.foldl min x ∈ y :: ys := hrot ▸ hperm.mem_iff.mpr hmmem
        exact foldlMin_le ys y hin
      · exact foldlMin_le xs x (hperm.mem_iff.mp hm'mem)
    have hlen : ((x :: xs).rotate n).length = (x :: xs).length := List.length_rotate _ n
    have hidx2 : ((x :: xs).rotate n).indexOf (ys.foldl min y) < (x :: xs).length := by
      rw [← hlen]
      exact List.indexOf_lt_length.mpr hm'mem
    have hpos : 0 < (x :: xs).length := by simp
    rw [hrot, normalize_cons y ys, ← hrot, normalize_cons x xs, List.rotate_rotate]
    rw [← List.rotate_mod (x :: xs) (n + ((x :: xs).rotate n).indexOf (ys.foldl min y))]
    refine rotate_inj_head _ hnd (Nat.mod_lt _ hpos)
      (List.indexOf_lt_length.mpr hmmem) ?_
    rw [List.rotate_mod, ← List.rotate_rotate]
    rw [show ((x :: xs).rotate n) = y :: ys from hrot]
    have hm'mem2 : ys.foldl min y ∈ y :: ys := foldlMin_mem ys y
    rw [head?_rotate_indexOf (y :: ys) _ hm'mem2,
      head?_rotate_indexOf (x :: xs) _ hmmem, hmm']

/-! ## Claim C4: canonical rotation dedup -/

/-- C4: for every duplicate-free cycle, every rotation normalises to the
identical canonical form (the rotation starting at the minimum element,
relative order preserved), and the detector output never records two
distinct entries whose node sequences are rotations of one another. -/
theorem claim4_canonical (c : List α) (n : Nat) (hnd : c.Nodup) :
    normalize_cycle (c.rotate n) = normalize_cycle c ∧
    (∀ (g : Graph α) (i j : Nat) (hi : i < (detect_cycles g).length)
        (hj : j < (detect_cycles g).length),
      ((detect_cycles g)[i].nodes).IsRotated ((detect_cycles g)[j].nodes) → i = j) := by
  refine ⟨normalize_rotate c hnd n, ?_⟩
  intro g i j hi hj hrot
  obtain ⟨hok, hcanon⟩ := detect_cycles_inv g
  obtain ⟨k, hk⟩ := hrot
  have hndi : (detect_cycles g)[i].nodes.Nodup :=
    (hok _ (List.getElem_mem hi)).2.1
  have hnorm : normalize_cycle ((detect_cycles g)[j].nodes) =
      normalize_cycle ((detect_cycles g)[i].nodes) := by
    rw [← hk]
    exact normalize_rotate _ hndi k
  have hmi : i < ((detect_cycles g).map (fun c => normalize_cycle c.nodes)).length := by
    simpa using hi
  have hmj : j < ((detect_cycles g).map (fun c => normalize_cycle c.nodes)).length := by
    simpa using hj
  have hmeq : ((detect_cycles g).map (fun c => normalize_cycle c.nodes))[i] =
      ((detect_cycles g).map (fun c => normalize_cycle c.nodes))[j] := by
    rw [List.getElem_map, List.getElem_map]
    exact hnorm.symm
  exact (List.Nodup.getElem_inj_iff hcanon).mp hmeq

/-- Witness for C4 at the concrete cycle [1, 2] and its rotation. -/
theorem claim4_canonical_witness :
    ([1, 2] : List Nat).Nodup ∧
    normalize_cycle (([1, 2] : List Nat).rotate 1) = normalize_cycle [1, 2] :=
  ⟨by decide, (claim4_canonical [1, 2] 1 (by decide)).1⟩

/-! ## Claim C5: validity of every emitted cycle -/

/-- C5 (amended): on any graph free of self-loop edges, every cycle the
detector emits has all consecutive pairs, wraparound included, present
as edges, has pairwise distinct nodes, and has at least 2 nodes.  (On a
graph with a self-loop edge the detector emits that 1-node cycle, see
the counterexample.) -/
theorem claim5_valid (g : Graph α) (hs : ∀ e ∈ g, e.1 ≠ e.2) :
    ∀ c ∈ detect_cycles g,
      validate_cycle g c.nodes = true ∧ c.nodes.Nodup ∧ 2 ≤ c.nodes.length := by
  intro c hc
  obtain ⟨hok, _⟩ := detect_cycles_inv g
  obtain ⟨hval, hnd, hne, _⟩ := hok c hc
  refine ⟨hval, hnd, ?_⟩
  by_contra hlt
  push_neg at hlt
  have h1 : c.nodes.length = 1 := by
    have h0 : c.nodes.length ≠ 0 := fun h0 => hne (List.length_eq_zero.mp h0)
    omega
  obtain ⟨v, hv⟩ := List.length_eq_one.mp h1
  rw [hv] at hval
  have hvv : hasEdge g v v = true := by
    simpa [validate_cycle, List.rotate_singleton] using hval
  exact hs (v, v) (hasEdge_iff.mp hvv) rfl

/-- Witness for C5 on the 2-cycle graph. -/
theorem claim5_valid_witness :
    (∀ e ∈ ([(1, 2), (2, 1)] : Graph Nat), e.1 ≠ e.2) ∧
    ((⟨[1, 2], [[1, 2], [2, 1]]⟩ : CycleInfo Nat) ∈
        detect_cycles ([(1, 2), (2, 1)] : Graph Nat)) ∧
    (validate_cycle ([(1, 2), (2, 1)] : Graph Nat) [1, 2] = true ∧
      ([1, 2] : List Nat).Nodup ∧ 2 ≤ ([1, 2] : List Nat).length) :=
  ⟨by decide, by decide,
    claim5_valid ([(1, 2), (2, 1)] : Graph Nat) (by decide)
      ⟨[1, 2], [[1, 2], [2, 1]]⟩ (by decide)⟩

/-- C5 counterexample: on the directed graph with the single self-loop
edge (0, 0) — a directed graph the claim quantifies over — the detector
emits the 1-node cycle [0], contradicting the claimed minimum length
of 2. -/
theorem claim5_counterexample :
    detect_cycles ([(0, 0)] : Graph Nat) = [⟨[0], [[0, 0]]⟩] ∧
    ¬ 2 ≤ ([0] : List Nat).length := by decide

/-! ## Claim C1: the detector is sound but not complete -/

/-- C1 (amended): every entry of the cycle detector's output is a simple
cycle of the input graph — consecutive pairs, wraparound included, are
edges; nodes are pairwise distinct; the sequence is nonempty — and its
edge-pair list is the wraparound pairing of its node list; but the
output may omit simple cycles of the graph (see the counterexample). -/
theorem claim1_sound (g : Graph α) :
    ∀ c ∈ detect_cycles g,
      validate_cycle g c.nodes = true ∧ c.nodes.Nodup ∧ c.nodes ≠ [] ∧
        c.paths = mkEdgePairs c.nodes :=
  (detect_cycles_inv g).1

/-- Witness for C1 on the 2-cycle graph. -/
theorem claim1_sound_witness :
    ((⟨[1, 2], [[1, 2], [2, 1]]⟩ : CycleInfo Nat) ∈
        detect_cycles ([(1, 2), (2, 1)] : Graph Nat)) ∧
    (validate_cycle ([(1, 2), (2, 1)] : Graph Nat) [1, 2] = true ∧
      ([1, 2] : List Nat).Nodup ∧ ([1, 2] : List Nat) ≠ [] ∧
      ([[1, 2], [2, 1]] : List (List Nat)) = mkEdgePairs [1, 2]) :=
  ⟨by decide,
    claim1_sound ([(1, 2), (2, 1)] : Graph Nat) ⟨[1, 2], [[1, 2], [2, 1]]⟩ (by decide)⟩

/-- C1 counterexample: on the graph {1→2, 2→3, 3→1, 1→3} the node list
[1, 3] is a simple cycle (both consecutive pairs, wraparound included,
are edges and its nodes are distinct), yet the detector's entire output
is the single entry [1, 2, 3], and [1, 3] is not a rotation of it: a
simple cycle of the input graph is absent from the output. -/
theorem claim1_counterexample :
    validate_cycle ([(1, 2), (2, 3), (3, 1), (1, 3)] : Graph Nat) [1, 3] = true ∧
    ([1, 3] : List Nat).Nodup ∧
    detect_cycles ([(1, 2), (2, 3), (3, 1), (1, 3)] : Graph Nat) =
      [⟨[1, 2, 3], [[1, 2], [2, 3], [3, 1]]⟩] ∧
    ¬ ([1, 3] : List Nat).IsRotated [1, 2, 3] := by decide

/-! ## Reachability: the breadth iteration computes exactly the
reflexive-transitive closure -/

theorem mem_stepReach {g : Graph α} {S : List α} {x : α} :
    x ∈ stepReach g S ↔ x ∈ S ∨ ∃ u ∈ S, (u, x) ∈ g := by
  unfold stepReach
  rw [List.mem_dedup, List.mem_append, List.mem_flatMap]
  simp [mem_neighbors]

theorem subset_stepReach (g : Graph α) (S : List α) : S ⊆ stepReach g S :=
  fun _ hx => mem_stepReach.mpr (Or.inl hx)

theorem stepReach_congr {g : Graph α} {S T : List α}
    (h : ∀ x, x ∈ S ↔ x ∈ T) (x : α) : x ∈ stepReach g S ↔ x ∈ stepReach g T := by
  rw [mem_stepReach, mem_stepReach]
  constructor
  · rintro (hx | ⟨u, hu, he⟩)
    · exact Or.inl ((h x).mp hx)
    · exact Or.inr ⟨u, (h u).mp hu, he⟩
  · rintro (hx | ⟨u, hu, he⟩)
    · exact Or.inl ((h x).mpr hx)
    · exact Or.inr ⟨u, (h u).mpr hu, he⟩

theorem reachAux_subset_succ (g : Graph α) (s : α) (k : Nat) :
    ∀ x, x ∈ reachAux g s k → x ∈ reachAux g s (k + 1) :=
  fun _ hx => subset_stepReach g _ hx

theorem reachAux_mono (g : Graph α) (s : α) {j k : Nat} (h : j ≤ k) :
    ∀ x, x ∈ reachAux g s j → x ∈ reachAux g s k := by
  induction k with
  | zero =>
    obtain rfl := Nat.le_zero.mp h
    exact fun x hx => hx
  | succ k ih =>
    rcases Nat.eq_or_lt_of_le h with rfl | hlt
    · exact fun x hx => hx
    · exact fun x hx => reachAux_subset_succ g s k x (ih (Nat.lt_succ_iff.mp hlt) x hx)

theorem reachAux_sound (g : Graph α) (s : α) :
    ∀ (k : Nat) (x : α), x ∈ reachAux g s k → Reaches g s x
  | 0, x, hx => by
    rw [reachAux, List.mem_singleton] at hx
    exact hx ▸ Relation.ReflTransGen.refl
  | k + 1, x, hx => by
    rw [reachAux] at hx
    rcases mem_stepReach.mp hx with hx | ⟨u, hu, he⟩
    · exact reachAux_sound g s k x hx
    · exact (reachAux_sound g s k u hu).tail (hasEdge_iff.mpr he)

theorem reachAux_nodes (g : Graph α) (s : α) :
    ∀ (k : Nat) (x : α), x ∈ reachAux g s k → x = s ∨ x ∈ nodesOf g
  | 0, x, hx => Or.inl (by rwa [reachAux, List.mem_singleton] at hx)
  | k + 1, x, hx => by
    rw [reachAux] at hx
    rcases mem_stepReach.mp hx with hx | ⟨u, hu, he⟩
    · exact reachAux_nodes g s k x hx
    · exact Or.inr (right_mem_nodesOf he)

theorem reachAux_growth (g : Graph α) (s : α) :
    ∀ k : Nat,
      (∀ j < k, ¬ (∀ x, x ∈ reachAux g s j ↔ x ∈ reachAux g s (j + 1))) →
      k + 1 ≤ (reachAux g s k).toFinset.card := by
  intro k
  induction k with
  | zero => intro _; simp [reachAux]
  | succ k ih =>
    intro h
    have hk := ih (fun j hj => h j (Nat.lt_succ_of_lt hj))
    have hne := h k (Nat.lt_succ_self k)
    have hsub : (reachAux g s k).toFinset ⊆ (reachAux g s (k + 1)).toFinset := by
      intro x hx
      rw [List.mem_toFinset] at hx ⊢
      exact reachAux_subset_succ g s k x hx
    have hy : ∃ y, y ∈ reachAux g s (k + 1) ∧ y ∉ reachAux g s k := by
      by_contra hno
      push_neg at hno
      exact hne fun x => ⟨reachAux_subset_succ g s k x, hno x⟩
    obtain ⟨y, hy1, hy2⟩ := hy
    have hss : (reachAux g s k).toFinset ⊂ (reachAux g s (k + 1)).toFinset := by
      rw [Finset.ssubset_iff_of_subset hsub]
      exact ⟨y, List.mem_toFinset.mpr hy1, fun hc => hy2 (List.mem_toFinset.mp hc)⟩
    have := Finset.card_lt_card hss
    omega

theorem reachAux_card_le (g : Graph α) (s : α) (k : Nat) :
    (reachAux g s k).toFinset.card ≤ (nodesOf g).length + 1 := by
  have hsub : (reachAux g s k).toFinset ⊆ insert s (nodesOf g).toFinset := by
    intro x hx
    rw [List.mem_toFinset] at hx
    rcases reachAux_nodes g s k x hx with rfl | hn
    · exact Finset.mem_insert_self x _
    · exact Finset.mem_insert_of_mem (List.mem_toFinset.mpr hn)
  have h1 := Finset.card_le_card hsub
  have h2 := Finset.card_insert_le s (nodesOf g).toFinset
  have h3 := List.toFinset_card_le (nodesOf g)
  omega

theorem exists_stable (g : Graph α) (s : α) :
    ∃ j ≤ (nodesOf g).length, ∀ x, x ∈ reachAux g s j ↔ x ∈ reachAux g s (j + 1) := by
  by_contra hno
  have h : ∀ j, j ≤ (nodesOf g).length →
      ¬ (∀ x, x ∈ reachAux g s j ↔ x ∈ reachAux g s (j + 1)) := by
    intro j hj hstable
    exact hno ⟨j, hj, hstable⟩
  have hg := reachAux_growth g s ((nodesOf g).length + 1)
    (fun j hj => h j (Nat.lt_succ_iff.mp hj))
  have hb := reachAux_card_le g s ((nodesOf g).length + 1)
  omega

theorem stable_forever (g : Graph α) (s : α) {j : Nat}
    (hst : ∀ x, x ∈ reachAux g s j ↔ x ∈ reachAux g s (j + 1)) :
    ∀ k, j ≤ k → ∀ x, x ∈ reachAux g s k ↔ x ∈ reachAux g s j := by
  intro k
  induction k with
  | zero =>
    intro hk x
    obtain rfl := Nat.le_zero.mp hk
    rfl
  | succ k ih =>
    intro hk x
    rcases Nat.eq_or_lt_of_le hk with rfl | hlt
    · rfl
    · have hj : j ≤ k := Nat.lt_succ_iff.mp hlt
      have h1 := stepReach_congr (g := g) (ih hj) x
      calc x ∈ reachAux g s (k + 1) ↔ x ∈ stepReach g (reachAux g s j) := h1
        _ ↔ x ∈ reachAux g s (j + 1) := Iff.rfl
        _ ↔ x ∈ reachAux g s j := (hst x).symm

theorem reachSet_closed (g : Graph α) (s : α) {u x : α}
    (hu : u ∈ reachSet g s) (he : (u, x) ∈ g) : x ∈ reachSet g s := by
  obtain ⟨j, hj, hst⟩ := exists_stable g s
  have h1 := stable_forever g s hst (nodesOf g).length hj
  have hu' : u ∈ reachAux g s j := (h1 u).mp hu
  have hx1 : x ∈ reachAux g s (j + 1) := mem_stepReach.mpr (Or.inr ⟨u, hu', he⟩)
  have hx2 : x ∈ reachAux g s j := (hst x).mpr hx1
  exact reachAux_mono g s hj x hx2

theorem mem_reachSet {g : Graph α} {s x : α} :
    x ∈ reachSet g s ↔ Reaches g s x := by
  constructor
  · exact reachAux_sound g s _ x
  · intro h
    induction h with
    | refl => exact reachAux_mono g s (Nat.zero_le _) s (by simp [reachAux])
    | tail _ hbc ih => exact reachSet_closed g s ih (hasEdge_iff.mp hbc)

theorem mem_descendants {g : Graph α} {s x : α} :
    x ∈ descendants g s ↔ Reaches g s x ∧ x ≠ s := by
  unfold descendants
  rw [List.mem_filter, mem_reachSet]
  simp

/-! ## Shortest-path construction -/

theorem buildBack_spec (g : Graph α) (s : α) :
    ∀ (k : Nat) (t : α), t ∈ reachAux g s k →
      (buildBack g s k t).head? = some s ∧
      (buildBack g s k t).getLast? = some t ∧
      List.Chain' (EdgeRel g) (buildBack g s k t) := by
  intro k
  induction k with
  | zero =>
    intro t ht
    rw [reachAux, List.mem_singleton] at ht
    subst ht
    exact ⟨rfl, rfl, List.chain'_singleton t⟩
  | succ k ih =>
    intro t ht
    rw [buildBack]
    by_cases hk : t ∈ reachAux g s k
    · rw [if_pos hk]
      exact ih t hk
    · rw [if_neg hk]
      rw [reachAux] at ht
      rcases mem_stepReach.mp ht with h | ⟨u, hu, he⟩
      · exact absurd h hk
      have hfind : (reachAux g s k).find? (fun u => hasEdge g u t) ≠ none := by
        intro hnone
        rw [List.find?_eq_none] at hnone
        exact hnone u hu (hasEdge_iff.mpr he)
      cases hf : (reachAux g s k).find? (fun u => hasEdge g u t) with
      | none => exact absurd hf hfind
      | some u' =>
        have hu'mem : u' ∈ reachAux g s k := List.mem_of_find?_eq_some hf
        have hps := List.find?_some (p := fun u => hasEdge g u t) hf
        have hu'edge : (u', t) ∈ g := hasEdge_iff.mp (by simpa using hps)
        obtain ⟨hh, hl, hch⟩ := ih u' hu'mem
        refine ⟨?_, List.getLast?_concat _, ?_⟩
        · rw [List.head?_append, hh]
          rfl
        · rw [List.chain'_append]
          refine ⟨hch, List.chain'_singleton t, ?_⟩
          intro x hx y hy
          rw [hl] at hx
          obtain rfl : u' = x := by simpa using hx
          obtain rfl : t = y := by simpa using hy
          exact hasEdge_iff.mpr hu'edge

theorem shortest_path_some {g : Graph α} {s t : α} (h : Reaches g s t) :
    shortest_path g s t = some (buildBack g s (nodesOf g).length t) := by
  unfold shortest_path
  rw [if_pos (mem_reachSet.mpr h)]

theorem shortest_path_spec {g : Graph α} {s t : α} {p : List α}
    (h : shortest_path g s t = some p) :
    p.head? = some s ∧ p.getLast? = some t ∧ List.Chain' (EdgeRel g) p := by
  unfold shortest_path at h
  split at h
  · rename_i hmem
    injection h with h'
    subst h'
    exact buildBack_spec g s _ t hmem
  · cases h

theorem buildBack_direct (g : Graph α) {s t : α} (he : (s, t) ∈ g) (hne : t ≠ s) :
    ∀ k, 1 ≤ k → buildBack g s k t = [s, t] := by
  have ht1 : t ∈ reachAux g s 1 :=
    mem_stepReach.mpr (Or.inr ⟨s, by simp [reachAux], he⟩)
  intro k
  induction k with
  | zero => intro h; cases h
  | succ k ih =>
    intro _
    rw [buildBack]
    by_cases hk : t ∈ reachAux g s k
    · rw [if_pos hk]
      have hk1 : 1 ≤ k := by
        rcases Nat.eq_zero_or_pos k with rfl | h
        · rw [reachAux, List.mem_singleton] at hk
          exact absurd hk hne
        · exact h
      exact ih hk1
    · rw [if_neg hk]
      have hk0 : k = 0 := by
        by_contra h0
        exact hk (reachAux_mono g s (Nat.one_le_iff_ne_zero.mpr h0) t ht1)
      subst hk0
      have hfind : (reachAux g s 0).find? (fun u => hasEdge g u t) = some s := by
        rw [reachAux]
        simp [List.find?, hasEdge_iff.mpr he]
      rw [hfind]
      rfl

theorem shortest_path_direct (g : Graph α) {s t : α} (he : (s, t) ∈ g) (hne : t ≠ s) :
    shortest_path g s t = some [s, t] := by
  have hreach : Reaches g s t := Relation.ReflTransGen.single (hasEdge_iff.mpr he)
  rw [shortest_path_some hreach]
  have hlen : 1 ≤ (nodesOf g).length := by
    have hs : s ∈ nodesOf g := left_mem_nodesOf he
    have h0 : (nodesOf g).length ≠ 0 := by
      intro h0
      rw [List.length_eq_zero] at h0
      rw [h0] at hs
      cases hs
    omega
  rw [buildBack_direct g he hne _ hlen]

/-! ## Violation detector characterisation -/

theorem mem_detect_violations_with {g : Graph α} {sp : α → α → Option (List α)}
    {v : Violation α} :
    v ∈ detect_violations_with g sp ↔
      v.source ∈ nodesOf g ∧ v.target ∈ descendants g v.source ∧
      v.source ∈ descendants g v.target ∧
      ∃ p1 p2, sp v.source v.target = some p1 ∧
        sp v.target v.source = some p2 ∧
        v.circular_path = p1 ++ p2.drop 1 := by
  unfold detect_violations_with
  rw [List.mem_flatMap]
  constructor
  · rintro ⟨source, hsrc, hv⟩
    rw [List.mem_filterMap] at hv
    obtain ⟨target, htgt, hfn⟩ := hv
    by_cases hcond : source ∈ descendants g target
    · rw [if_pos hcond] at hfn
      cases hp1 : sp source target with
      | none => rw [hp1] at hfn; cases hfn
      | some p1 =>
        cases hp2 : sp target source with
        | none => rw [hp1, hp2] at hfn; cases hfn
        | some p2 =>
          rw [hp1, hp2] at hfn
          injection hfn with hv'
          subst hv'
          exact ⟨hsrc, htgt, hcond, p1, p2, hp1, hp2, rfl⟩
    · rw [if_neg hcond] at hfn
      cases hfn
  · rintro ⟨hsrc, htgt, hcond, p1, p2, hp1, hp2, hpath⟩
    refine ⟨v.source, hsrc, ?_⟩
    rw [List.mem_filterMap]
    refine ⟨v.target, htgt, ?_⟩
    rw [if_pos hcond, hp1, hp2]
    cases v with
    | mk s t c =>
      simp only at hpath ⊢
      rw [hpath]

theorem mem_detect_violations {g : Graph α} {v : Violation α} :
    v ∈ detect_broader_than_violations g ↔
      v.source ∈ nodesOf g ∧ v.target ∈ descendants g v.source ∧
      v.source ∈ descendants g v.target ∧
      ∃ p1 p2, shortest_path g v.source v.target = some p1 ∧
        shortest_path g v.target v.source = some p2 ∧
        v.circular_path = p1 ++ p2.drop 1 := by
  unfold detect_broader_than_violations
  exact mem_detect_violations_with

/-- The `nx.shortest_path` contract, which the model's `shortest_path`
realises: a path is returned exactly when the target is reachable. -/
theorem shortest_path_isSome {g : Graph α} (s t : α) :
    (shortest_path g s t).isSome = true ↔ Reaches g s t := by
  unfold shortest_path
  split
  · rename_i h
    simpa using mem_reachSet.mp h
  · rename_i h
    simp only [Option.isSome_none]
    constructor
    · intro hfalse
      cases hfalse
    · intro hr
      exact absurd (mem_reachSet.mpr hr) h

/-- The membership characterisation of a reported pair, for any
shortest-path routine meeting the library contract (success exactly on
reachability): an entry for (a, b) exists iff a ≠ b and each is
reachable from the other.  The tie-break choice of the routine is
irrelevant to which pairs are reported. -/
theorem violation_pair_iff_with {g : Graph α} {sp : α → α → Option (List α)}
    (hsp : ∀ s t, (sp s t).isSome = true ↔ Reaches g s t) {a b : α} :
    (∃ v ∈ detect_violations_with g sp, v.source = a ∧ v.target = b) ↔
      (a ≠ b ∧ Reaches g a b ∧ Reaches g b a) := by
  constructor
  · rintro ⟨v, hv, rfl, rfl⟩
    rw [mem_detect_violations_with] at hv
    obtain ⟨hsrc, htgt, hcond, _⟩ := hv
    rw [mem_descendants] at htgt hcond
    exact ⟨Ne.symm htgt.2, htgt.1, hcond.1⟩
  · rintro ⟨hne, hab, hba⟩
    have ha : a ∈ nodesOf g := by
      rcases Relation.ReflTransGen.cases_head hab with rfl | ⟨c, hac, _⟩
      · exact absurd rfl hne
      · exact left_mem_nodesOf (hasEdge_iff.mp hac)
    obtain ⟨p1, hp1⟩ := Option.isSome_iff_exists.mp ((hsp a b).mpr hab)
    obtain ⟨p2, hp2⟩ := Option.isSome_iff_exists.mp ((hsp b a).mpr hba)
    refine ⟨⟨a, b, p1 ++ p2.drop 1⟩, ?_, rfl, rfl⟩
    rw [mem_detect_violations_with]
    exact ⟨ha, mem_descendants.mpr ⟨hab, Ne.symm hne⟩,
      mem_descendants.mpr ⟨hba, hne⟩, p1, p2, hp1, hp2, rfl⟩

theorem violation_pair_iff {g : Graph α} {a b : α} :
    (∃ v ∈ detect_broader_than_violations g, v.source = a ∧ v.target = b) ↔
      (a ≠ b ∧ Reaches g a b ∧ Reaches g b a) := by
  unfold detect_broader_than_violations
  exact violation_pair_iff_with (fun s t => shortest_path_isSome s t)

/-! ## Claim C2: the violation detector's contract -/

/-- C2: an entry for the ordered pair (a, b) exists iff a ≠ b, b is
reachable from a, and a is reachable from b — in particular both
orderings of a mutually reachable pair are reported, the condition being
symmetric — and when the mutual reachability is witnessed by the two
direct edges a→b and b→a, the entry for (a, b) carries the 3-node
circular path [a, b, a]. -/
theorem claim2_violations (g : Graph α) (a b : α) :
    ((∃ v ∈ detect_broader_than_violations g, v.source = a ∧ v.target = b) ↔
      (a ≠ b ∧ Reaches g a b ∧ Reaches g b a)) ∧
    ((a, b) ∈ g → (b, a) ∈ g → a ≠ b →
      ∃ v ∈ detect_broader_than_violations g,
        v.source = a ∧ v.target = b ∧ v.circular_path = [a, b, a]) := by
  refine ⟨violation_pair_iff, ?_⟩
  intro hab hba hne
  have h1 : Reaches g a b := Relation.ReflTransGen.single (hasEdge_iff.mpr hab)
  have h2 : Reaches g b a := Relation.ReflTransGen.single (hasEdge_iff.mpr hba)
  have ha : a ∈ nodesOf g := left_mem_nodesOf hab
  have hp1 := shortest_path_direct g hab (Ne.symm hne)
  have hp2 := shortest_path_direct g hba hne
  refine ⟨⟨a, b, [a, b, a]⟩, ?_, rfl, rfl, rfl⟩
  rw [mem_detect_violations]
  exact ⟨ha, mem_descendants.mpr ⟨h1, Ne.symm hne⟩,
    mem_descendants.mpr ⟨h2, hne⟩, [a, b], [b, a], hp1, hp2, rfl⟩

/-- Witness for C2: the two-edge mutual pair of Scenario 4, reported in
both orders, the (1, 2) entry with its 3-node circular path. -/
theorem claim2_violations_witness :
    (∃ v ∈ detect_broader_than_violations ([(1, 2), (2, 1)] : Graph Nat),
      v.source = 1 ∧ v.target = 2 ∧ v.circular_path = [1, 2, 1]) ∧
    (∃ v ∈ detect_broader_than_violations ([(1, 2), (2, 1)] : Graph Nat),
      v.source = 2 ∧ v.target = 1 ∧ v.circular_path = [2, 1, 2]) :=
  ⟨(claim2_violations ([(1, 2), (2, 1)] : Graph Nat) 1 2).2
      (by decide) (by decide) (by decide),
   (claim2_violations ([(1, 2), (2, 1)] : Graph Nat) 2 1).2
      (by decide) (by decide) (by decide)⟩

/-! ## Claim C10: shape of the witness circular path -/

/-- C10: every emitted violation's circular path starts at the entry's
source, ends at the entry's source, passes through the entry's target,
and each consecutive pair along it is an edge of the input graph. -/
theorem claim10_circular_path (g : Graph α) (v : Violation α)
    (hv : v ∈ detect_broader_than_violations g) :
    v.circular_path.head? = some v.source ∧
    v.circular_path.getLast? = some v.source ∧
    v.target ∈ v.circular_path ∧
    List.Chain' (EdgeRel g) v.circular_path := by
  rw [mem_detect_violations] at hv
  obtain ⟨hsrc, htgt, hcond, p1, p2, hp1, hp2, hpath⟩ := hv
  obtain ⟨h1h, h1l, h1c⟩ := shortest_path_spec hp1
  obtain ⟨h2h, h2l, h2c⟩ := shortest_path_spec hp2
  have hne : v.target ≠ v.source := (mem_descendants.mp htgt).2
  obtain ⟨x, rest, hp2eq⟩ : ∃ x rest, p2 = x :: rest := by
    cases p2 with
    | nil => cases h2h
    | cons x rest => exact ⟨x, rest, rfl⟩
  obtain rfl : x = v.target := by
    rw [hp2eq] at h2h
    simpa using h2h
  have hrest : rest ≠ [] := by
    intro h0
    rw [hp2eq, h0] at h2l
    simp at h2l
    exact hne h2l
  have hp1ne : p1 ≠ [] := by
    intro h0
    rw [h0] at h1h
    cases h1h
  refine ⟨?_, ?_, ?_, ?_⟩
  · rw [hpath, List.head?_append, h1h]
    rfl
  · rw [hpath, hp2eq, List.drop_succ_cons, List.drop_zero,
      List.getLast?_append_of_ne_nil _ hrest]
    rw [hp2eq] at h2l
    obtain ⟨r, rs, hrr⟩ : ∃ r rs, rest = r :: rs := by
      cases rest with
      | nil => exact absurd rfl hrest
      | cons r rs => exact ⟨r, rs, rfl⟩
    rw [hrr] at h2l ⊢
    rwa [List.getLast?_cons_cons] at h2l
  · have htmem : v.target ∈ p1 := by
      have hmem' : v.target ∈ p1.getLast? := by
        rw [h1l]
        rfl
      obtain ⟨hne', heq⟩ := List.mem_getLast?_eq_getLast hmem'
      rw [heq]
      exact List.getLast_mem hne'
    rw [hpath]
    exact List.mem_append.mpr (Or.inl htmem)
  · rw [hpath, List.chain'_append]
    refine ⟨h1c, ?_, ?_⟩
    · have h := h2c.tail
      rwa [← List.drop_one] at h
    · intro x' hx' y hy'
      rw [h1l] at hx'
      obtain rfl : v.target = x' := by simpa using hx'
      rw [hp2eq, List.drop_succ_cons, List.drop_zero] at hy'
      rw [hp2eq, List.chain'_cons'] at h2c
      exact h2c.1 y hy'

/-- Witness for C10 on the concrete entry (2, 1) of the two-edge mutual
pair. -/
theorem claim10_circular_path_witness :
    ([2, 1, 2] : List Nat).head? = some 2 ∧
    ([2, 1, 2] : List Nat).getLast? = some 2 ∧
    (1 : Nat) ∈ ([2, 1, 2] : List Nat) ∧
    List.Chain' (EdgeRel ([(1, 2), (2, 1)] : Graph Nat)) [2, 1, 2] :=
  claim10_circular_path ([(1, 2), (2, 1)] : Graph Nat) ⟨2, 1, [2, 1, 2]⟩ (by decide)

/-! ## Run-to-run determinism (claim C8)

The source materialises the parsed edge **sets** into lists
(`list(parent_child_edges)`, line 94) before building each graph; the
enumeration order of a Python set of strings varies from run to run
(hash randomisation), so two runs on identical input hand the detectors
two permutations of the same edge set.  A run is therefore modelled as
the pipeline applied to an arbitrary permutation of the parsed edges:
determinism of an output means invariance under that permutation.  The
edge order reaches the violation witnesses only through
`nx.shortest_path`'s tie-breaking, so the positive results below hold
for any contract-abiding shortest-path routine, while the counterexample
is evaluated on `nx_detect_broader_than_violations`, the embedding of
the library's actual bidirectional BFS. -/

theorem hasEdge_congr {g1 g2 : Graph α} (h : ∀ e : α × α, e ∈ g1 ↔ e ∈ g2) :
    hasEdge g1 = hasEdge g2 := by
  funext u v
  rw [hasEdge, hasEdge, decide_eq_decide]
  exact h (u, v)

theorem EdgeRel_congr {g1 g2 : Graph α} (h : ∀ e : α × α, e ∈ g1 ↔ e ∈ g2) :
    EdgeRel g1 = EdgeRel g2 := by
  funext u v
  rw [EdgeRel, EdgeRel, hasEdge_congr h]

theorem sortedNodes_congr {g1 g2 : Graph α} (h : ∀ e : α × α, e ∈ g1 ↔ e ∈ g2) :
    sortedNodes g1 = sortedNodes g2 := by
  have hmem : ∀ x, x ∈ nodesOf g1 ↔ x ∈ nodesOf g2 := by
    intro x
    rw [mem_nodesOf, mem_nodesOf]
    constructor
    · rintro ⟨e, he, hx⟩
      exact ⟨e, (h e).mp he, hx⟩
    · rintro ⟨e, he, hx⟩
      exact ⟨e, (h e).mpr he, hx⟩
  have hperm : (nodesOf g1).Perm (nodesOf g2) :=
    (List.perm_ext_iff_of_nodup (nodup_nodesOf g1) (nodup_nodesOf g2)).mpr hmem
  refine List.eq_of_perm_of_sorted ?_
    (List.sorted_insertionSort _ _) (List.sorted_insertionSort _ _)
  exact (List.perm_insertionSort _ _).trans (hperm.trans (List.perm_insertionSort _ _).symm)

theorem sortedNeighbors_congr {g1 g2 : Graph α} (h : ∀ e : α × α, e ∈ g1 ↔ e ∈ g2)
    (u : α) : sortedNeighbors g1 u = sortedNeighbors g2 u := by
  have hmem : ∀ x, x ∈ neighbors g1 u ↔ x ∈ neighbors g2 u := by
    intro x
    rw [mem_neighbors, mem_neighbors]
    exact h (u, x)
  have hperm : (neighbors g1 u).Perm (neighbors g2 u) :=
    (List.perm_ext_iff_of_nodup (nodup_neighbors g1 u) (nodup_neighbors g2 u)).mpr hmem
  refine List.eq_of_perm_of_sorted ?_
    (List.sorted_insertionSort _ _) (List.sorted_insertionSort _ _)
  exact (List.perm_insertionSort _ _).trans (hperm.trans (List.perm_insertionSort _ _).symm)

theorem dfs_congr {g1 g2 : Graph α}
    (hn : ∀ u, sortedNeighbors g1 u = sortedNeighbors g2 u)
    (he : hasEdge g1 = hasEdge g2) :
    ∀ (fuel : Nat) (node : α) (st : DfsState α),
      dfs g1 fuel node st = dfs g2 fuel node st := by
  intro fuel
  induction fuel with
  | zero => intro node st; rfl
  | succ fuel ih =>
    intro node st
    have hval : ∀ c : List α, validate_cycle g1 c = validate_cycle g2 c := by
      intro c
      unfold validate_cycle
      rw [he]
    have hfold : ∀ (l : List α) (s : DfsState α),
        List.foldl (fun s n => dfs g1 fuel n s) s l =
        List.foldl (fun s n => dfs g2 fuel n s) s l :=
      fun l s => foldl_congr_fn (fun s x => ih x s) l s
    simp only [dfs]
    rw [hval, hn node, hfold]

theorem detect_cycles_congr {g1 g2 : Graph α} (h : ∀ e : α × α, e ∈ g1 ↔ e ∈ g2) :
    detect_cycles g1 = detect_cycles g2 := by
  unfold detect_cycles
  rw [sortedNodes_congr h]
  refine congrArg DfsState.cycles (foldl_congr_fn ?_ _ _)
  intro s x
  by_cases hv : x ∈ s.visited
  · simp [hv]
  · simp only [if_neg hv]
    exact dfs_congr (sortedNeighbors_congr h) (hasEdge_congr h) _ x _

/-- Pair-set invariance across runs: for any two enumeration orders of
the same edge set and any two shortest-path routines each meeting the
library contract on its graph — whatever their tie-breaking — the
reported (source, target) pairs coincide. -/
theorem violation_pairs_congr {g1 g2 : Graph α}
    {sp1 sp2 : α → α → Option (List α)}
    (h : ∀ e : α × α, e ∈ g1 ↔ e ∈ g2)
    (h1 : ∀ s t, (sp1 s t).isSome = true ↔ Reaches g1 s t)
    (h2 : ∀ s t, (sp2 s t).isSome = true ↔ Reaches g2 s t)
    (a b : α) :
    (∃ v ∈ detect_violations_with g1 sp1, v.source = a ∧ v.target = b) ↔
    (∃ v ∈ detect_violations_with g2 sp2, v.source = a ∧ v.target = b) := by
  rw [violation_pair_iff_with h1, violation_pair_iff_with h2]
  unfold Reaches
  rw [EdgeRel_congr h]

/-- C8 (amended): across two runs on identical input — modelled as the
detectors receiving two enumeration orders of the same parsed edge set —
the cycle detector's output list is identical (its traversal sorts nodes
and neighbours), and the violation detector reports exactly the same set
of (source, target) pairs, whichever contract-abiding shortest-path
routine each run's library uses; the violation entries' witness circular
paths are NOT run-independent (see the counterexample), which is the one
correction to the claim. -/
theorem claim8_determinism (g1 g2 : Graph α) (h : g1.Perm g2) :
    detect_cycles g1 = detect_cycles g2 ∧
    (∀ sp1 sp2 : α → α → Option (List α),
      (∀ s t, (sp1 s t).isSome = true ↔ Reaches g1 s t) →
      (∀ s t, (sp2 s t).isSome = true ↔ Reaches g2 s t) →
      ∀ a b : α,
        (∃ v ∈ detect_violations_with g1 sp1, v.source = a ∧ v.target = b) ↔
        (∃ v ∈ detect_violations_with g2 sp2, v.source = a ∧ v.target = b)) :=
  ⟨detect_cycles_congr (fun _ => h.mem_iff),
   fun _ _ h1 h2 a b => violation_pairs_congr (fun _ => h.mem_iff) h1 h2 a b⟩

/-- Witness for C8 on two orderings of a concrete edge set, the
shortest-path routines instantiated with the contract-level model. -/
theorem claim8_determinism_witness :
    detect_cycles ([(1, 2), (2, 1)] : Graph Nat) =
      detect_cycles ([(2, 1), (1, 2)] : Graph Nat) ∧
    ((∃ v ∈ detect_violations_with ([(1, 2), (2, 1)] : Graph Nat)
          (shortest_path [(1, 2), (2, 1)]), v.source = 1 ∧ v.target = 2) ↔
      (∃ v ∈ detect_violations_with ([(2, 1), (1, 2)] : Graph Nat)
          (shortest_path [(2, 1), (1, 2)]), v.source = 1 ∧ v.target = 2)) :=
  ⟨(claim8_determinism ([(1, 2), (2, 1)] : Graph Nat) [(2, 1), (1, 2)] (by decide)).1,
   (claim8_determinism ([(1, 2), (2, 1)] : Graph Nat) [(2, 1), (1, 2)] (by decide)).2
      (shortest_path [(1, 2), (2, 1)]) (shortest_path [(2, 1), (1, 2)])
      (fun s t => shortest_path_isSome s t) (fun s t => shortest_path_isSome s t) 1 2⟩

/-- C8 counterexample, settled against the library's own bidirectional
BFS: the edge lists [(1,2),(1,3),(2,4),(3,4),(4,1)] and
[(1,2),(1,3),(3,4),(2,4),(4,1)] are permutations of one another — the
same parsed edge set, enumerated in two orders as two Python runs may.
Both shortest paths from 1 to 4 tie; the bidirectional search meets at
the first entry of the predecessor adjacency of 4, which is 2 in the
first order and 3 in the second.  The violation entry (4, 1) therefore
carries witness path [4,1,2,4] in the first run and not in the second
(there it carries [4,1,3,4]): the violation output sets, witness paths
included, differ between runs. -/
theorem claim8_counterexample :
    ([(1, 2), (1, 3), (2, 4), (3, 4), (4, 1)] : Graph Nat).Perm
      [(1, 2), (1, 3), (3, 4), (2, 4), (4, 1)] ∧
    (⟨4, 1, [4, 1, 2, 4]⟩ : Violation Nat) ∈
      nx_detect_broader_than_violations
        ([(1, 2), (1, 3), (2, 4), (3, 4), (4, 1)] : Graph Nat) ∧
    (⟨4, 1, [4, 1, 2, 4]⟩ : Violation Nat) ∉
      nx_detect_broader_than_violations
        ([(1, 2), (1, 3), (3, 4), (2, 4), (4, 1)] : Graph Nat) := by decide

end UMLS
